import Mathlib

/-!
Verification of the background image-loading actor, its weighted LRU image
cache and the directory/list navigation algorithm of a desktop image viewer.

File names and paths are modelled by their UTF-8 byte sequences
(`List Nat`), since every comparison the program performs on them is a
byte-level or character-level comparison.
-/

namespace Eo2

/-- A file name or path rendered as its UTF-8 byte sequence. -/
abbrev Name := List Nat

/-- Rust `Option::or`. -/
def optOr {α : Type} : Option α → Option α → Option α
  | some a, _ => some a
  | none, b => b

/-- Comparison of two natural numbers, as Rust `Ord` on unsigned integers. -/
def cmpNat (a b : Nat) : Ordering :=
  if a < b then .lt else if b < a then .gt else .eq

/-- Byte-wise lexicographic comparison of byte strings. -/
def cmpBytes : Name → Name → Ordering
  | [], [] => .eq
  | [], _ :: _ => .lt
  | _ :: _, [] => .gt
  | a :: as, b :: bs => (cmpNat a b).then (cmpBytes as bs)

/-- Remove the longest common prefix of two byte strings, returning the two
remaining suffixes. -/
def splitCommon : Name → Name → Name × Name
  | a :: as, b :: bs => if a = b then splitCommon as bs else (a :: as, b :: bs)
  | as, bs => (as, bs)

/-- ASCII digit test on a byte. -/
def isDigit (b : Nat) : Bool := 48 ≤ b && b ≤ 57

/-- Value of the leading ASCII digit run of a byte string, as an unsigned
integer. -/
def runVal (l : Name) : Nat :=
  (l.takeWhile isDigit).foldl (fun acc b => acc * 10 + (b - 48)) 0

/-- Modelled from the spec: the natural ("human") comparator
`natord::compare`, used by the program through its `HumanCompare` wrapper;
the crate's source is not part of this repository.  Following the spec's
words: remove the longest common byte prefix of the two strings; if both
remaining suffixes begin with ASCII digits, parse each leading digit run as
an unsigned integer and compare the two numerically; otherwise fall back to
byte-wise comparison of the suffixes. -/
def natCompare (a b : Name) : Ordering :=
  match splitCommon a b with
  | (x :: xs, y :: ys) =>
    if isDigit x && isDigit y then cmpNat (runVal (x :: xs)) (runVal (y :: ys))
    else cmpBytes (x :: xs) (y :: ys)
  | (xs, ys) => cmpBytes xs ys

/-- Rust `Direction` from `next_path.rs`. -/
inductive Direction where
  | left
  | right
deriving DecidableEq

/-- Rust `Direction::for_ordering`. -/
def Direction.forOrdering : Direction → Ordering → Ordering
  | .right, o => o
  | .left, o => o.swap

/-- Rust `Direction::before`, applied to an already-computed comparison of
the two values (the key-then-name comparison is passed in by the caller). -/
def Direction.before (d : Direction) (o : Ordering) : Bool :=
  (d.forOrdering o).isLT

/-- Rust `Direction::after`. -/
def Direction.after (d : Direction) (o : Ordering) : Bool :=
  (d.forOrdering o).isGT

/-- The derived lexicographic `Ord` of `FindNextItem { key, name }`: compare
the keys, break ties by the human comparison of the names.  The key of an
item is always `make_key.for_name(name)`, so items are recoverable from
names and the comparator acts on names directly. -/
def itemCmp {κ : Type} (makeKey : Name → κ) (kcmp : κ → κ → Ordering)
    (a b : Name) : Ordering :=
  (kcmp (makeKey a) (makeKey b)).then (natCompare a b)

/-- The update of the running "wrapped" item of Rust `find_next_impl` for
one scanned item (`wrapped_name` is replaced when it is absent or the new
item comes before it). -/
def stepWrap (c : Name → Name → Ordering) (d : Direction)
    (wrappedAcc : Option (Name × Nat)) (x : Name) (i : Nat) :
    Option (Name × Nat) :=
  if wrappedAcc.all (fun w => d.before (c x w.1)) then some (x, i)
  else wrappedAcc

/-- The update of the running "next" item of Rust `find_next_impl` for one
scanned item (`next_name` is replaced when the item comes after the current
item and before the running next). -/
def stepNext (c : Name → Name → Ordering) (d : Direction) (cur : Name)
    (nextAcc : Option (Name × Nat)) (x : Name) (i : Nat) :
    Option (Name × Nat) :=
  if d.after (c x cur) && nextAcc.all (fun nx => d.before (c x nx.1)) then
    some (x, i)
  else nextAcc

/-- The scan loop of Rust `find_next_impl`: one pass over the enumerated
candidate names, updating the running "next" and "wrapped" items.  `c` is
the key-then-name item comparison, applied to names since keys are derived
from names. -/
def findNextLoop (c : Name → Name → Ordering) (d : Direction) (cur : Name) :
    List Name → Nat → Option (Name × Nat) → Option (Name × Nat) →
    Option (Name × Nat) × Option (Name × Nat)
  | [], _, nextAcc, wrappedAcc => (nextAcc, wrappedAcc)
  | n :: rest, idx, nextAcc, wrappedAcc =>
    findNextLoop c d cur rest (idx + 1) (stepNext c d cur nextAcc n idx)
      (stepWrap c d wrappedAcc n idx)

/-- Rust `find_next_impl` for a given item comparison: run the scan from
empty accumulators and return `next_name.or(wrapped_name)`. -/
def findNextC (c : Name → Name → Ordering) (d : Direction) (cur : Name)
    (dir : List Name) : Option (Name × Nat) :=
  optOr (findNextLoop c d cur dir 0 none none).1
    (findNextLoop c d cur dir 0 none none).2

/-- Rust `find_next_impl`, generic over the key maker (`NoKey` or
`WithHash`): returns the chosen name and its index in the candidate
enumeration, or none. -/
def findNextImpl {κ : Type} (makeKey : Name → κ) (kcmp : κ → κ → Ordering)
    (d : Direction) (currentName : Name) (dir : List Name) :
    Option (Name × Nat) :=
  findNextC (itemCmp makeKey kcmp) d currentName dir

/-- Rust `Mode` from `next_path.rs`. -/
inductive Mode where
  | simple
  | random (seed : Nat)
deriving DecidableEq

/-- Rust `NextPath` from `next_path.rs`. -/
structure NextPath where
  direction : Direction
  mode : Mode
deriving DecidableEq

/-- Rust `NextPath::find_next`.  `hash` models `fxhash` of `(seed, name)`
(the `rustc_hash` crate's source is not part of this repository; the spec
only requires a deterministic fast hash keyed by the seed), `cmpNat` is the
`u64` key order of `WithHash`, and the unit key with constant `eq`
comparison is `NoKey`. -/
def NextPath.findNext (hash : Nat → Name → Nat) (np : NextPath)
    (currentName : Name) (items : List Name) : Option (Name × Nat) :=
  match np.mode with
  | .simple => findNextImpl (fun _ => ()) (fun _ _ => .eq) np.direction currentName items
  | .random seed => findNextImpl (hash seed) cmpNat np.direction currentName items

/-- A filesystem path, split as the source does: a parent directory and a
file name (`path.parent()` / `path.file_name()`). -/
structure FsPath where
  parent : Name
  fileName : Name
deriving DecidableEq

/-- The full path string of a path (`to_string_lossy` of the joined path);
47 is the byte of the path separator. -/
def FsPath.render (p : FsPath) : Name := p.parent ++ 47 :: p.fileName

/-- Modelled from the spec: the directory contents seen through the
directory-listing capability — the set of existing image files (directory
entries that are directories or have unrecognized extensions are already
excluded by `read_dir_to_find_next_iterator`). -/
structure Fs where
  files : List FsPath
deriving DecidableEq

/-- Names listed for one directory. -/
def Fs.listDir (fs : Fs) (d : Name) : List Name :=
  (fs.files.filter fun p => decide (p.parent = d)).map FsPath.fileName

/-- An I/O failure, kept abstract. -/
inductive IoError where
  | notFound
deriving DecidableEq

/-- Modelled from the spec: the filesystem delete capability
(`std::fs::remove_file`), which surfaces an I/O error when the file does
not exist. -/
def Fs.removeFile (fs : Fs) (p : FsPath) : Except IoError Fs :=
  if p ∈ fs.files then .ok ⟨fs.files.erase p⟩ else .error .notFound

/-- Rust `next_in_directory`: list the parent directory of the current path
afresh and run the scan over the file names. -/
def nextInDirectory (hash : Nat → Name → Nat) (fs : Fs) (current : FsPath)
    (np : NextPath) : Option FsPath :=
  (np.findNext hash current.fileName (fs.listDir current.parent)).map
    fun r => ⟨current.parent, r.1⟩

/-- Rust `next_in_list`: the candidates are the rendered full paths of the
list, and only the resulting index is returned. -/
def nextInList (hash : Nat → Name → Nat) (list : List FsPath)
    (current : FsPath) (np : NextPath) : Option Nat :=
  (np.findNext hash current.render (list.map FsPath.render)).map (·.2)

/-- Per-frame decoded pixel data, reduced to what the core consumes: the
frame's texture dimensions and its duration (milliseconds). -/
structure Frame where
  width : Nat
  height : Nat
  durationMs : Nat
deriving DecidableEq

/-- Rust `Image` (format tag and file metadata omitted; no claim touches
them). -/
structure Image where
  width : Nat
  height : Nat
  frames : List Frame
deriving DecidableEq

/-- Largest `usize` value (the program targets 64-bit). -/
def usizeMax : Nat := 2 ^ 64 - 1

/-- Rust `usize::saturating_mul`. -/
def satMul (a b : Nat) : Nat := min (a * b) usizeMax

/-- Rust `Image::size_in_memory`: for every frame
`width.saturating_mul(height).saturating_mul(4)`, added up by the plain
`usize` sum, which wraps modulo `2 ^ 64` (release semantics). -/
def Image.sizeInMemory (img : Image) : Nat :=
  ((img.frames.map fun f => satMul (satMul f.width f.height) 4).sum) % 2 ^ 64

/-- Modelled from the spec: the capacity failure of a cache insertion. -/
inductive CacheError where
  | capacityExceeded
deriving DecidableEq

/-- Modelled from the spec: the `clru` weighted LRU cache (an external
crate).  `entries` is kept most-recently-used first; `capacity` is the byte
weight budget. -/
structure Cache where
  capacity : Nat
  entries : List (FsPath × Image)
deriving DecidableEq

/-- Total byte weight of a run of entries. -/
def weightOf (es : List (FsPath × Image)) : Nat :=
  (es.map fun e => e.2.sizeInMemory).sum

/-- Spec `total_weight()`. -/
def Cache.totalWeight (c : Cache) : Nat := weightOf c.entries

/-- Pure lookup of a cached image by path. -/
def Cache.lookup (c : Cache) (p : FsPath) : Option Image :=
  (c.entries.find? fun e => decide (e.1 = p)).map (·.2)

/-- Spec `get(path)`: on a hit the entry is marked most recently used. -/
def Cache.get (c : Cache) (p : FsPath) : Option Image × Cache :=
  match c.lookup p with
  | none => (none, c)
  | some img =>
    (some img, ⟨c.capacity, (p, img) :: c.entries.filter fun e => decide (¬ e.1 = p)⟩)

/-- Drop least-recently-used entries until the new entry's weight fits
under the capacity; the argument list is least-recently-used first. -/
def evictLru (cap w : Nat) : List (FsPath × Image) → List (FsPath × Image)
  | [] => []
  | e :: rest =>
    if weightOf (e :: rest) + w ≤ cap then e :: rest else evictLru cap w rest

/-- Spec `insert(path, image)` (`put_with_weight` on the cache-miss path):
fails only when the single entry's weight alone exceeds the capacity;
otherwise evicts least-recently-used entries until the new entry fits and
inserts it as most recently used. -/
def Cache.put (c : Cache) (p : FsPath) (img : Image) : Except CacheError Cache :=
  let w := img.sizeInMemory
  if c.capacity < w then .error .capacityExceeded
  else .ok ⟨c.capacity, (p, img) :: (evictLru c.capacity w c.entries.reverse).reverse⟩

/-- Decode failure taxonomy of the external decoder, kept abstract. -/
inductive DecodeError where
  | unsupported
  | ioFailure
  | structural
deriving DecidableEq

instance {ε α : Type} [DecidableEq ε] [DecidableEq α] : DecidableEq (Except ε α) := fun
  | .error a, .error b =>
    if h : a = b then .isTrue (congrArg Except.error h)
    else .isFalse fun hc => h (Except.error.inj hc)
  | .error _, .ok _ => .isFalse fun hc => Except.noConfusion hc
  | .ok _, .error _ => .isFalse fun hc => Except.noConfusion hc
  | .ok a, .ok b =>
    if h : a = b then .isTrue (congrArg Except.ok h)
    else .isFalse fun hc => h (Except.ok.inj hc)

/-- Rust `NextPathMode` from `actor.rs`. -/
inductive NextPathMode where
  | simple
  | random
deriving DecidableEq

/-- Rust `actor::NextPath`. -/
structure ActorNextPath where
  direction : Direction
  mode : NextPathMode
deriving DecidableEq

/-- Rust `NextPathMode::with_random_seed`. -/
def NextPathMode.withRandomSeed : NextPathMode → Nat → Mode
  | .simple, _ => .simple
  | .random, seed => .random seed

/-- Rust `actor::NextPath::with_random_seed`. -/
def ActorNextPath.withRandomSeed (a : ActorNextPath) (seed : Nat) : NextPath :=
  ⟨a.direction, a.mode.withRandomSeed seed⟩

/-- Rust `actor::NextPath::RIGHT`. -/
def ActorNextPath.RIGHT : ActorNextPath := ⟨.right, .simple⟩

/-- Rust `Command` from `actor.rs`. -/
inductive Command where
  | nextPath (args : ActorNextPath)
  | deleteFile (path : FsPath)
deriving DecidableEq

/-- Rust `Response` from `actor.rs` (`LoadedImage` inlined). -/
inductive Response where
  | loadImage (path : FsPath) (image : Except DecodeError Image)
  | noOp
deriving DecidableEq

/-- Rust `NavigationMode` from `actor.rs`. -/
inductive NavigationMode where
  | inDirectory (current : FsPath)
  | specified (paths : List FsPath) (current : Nat)
  | empty
deriving DecidableEq

/-- Rust `NavigationMode::current_path`.  The source indexes
`paths[current]`, which panics out of bounds; the in-bounds invariant is
proved below, and the optional indexing records exactly the no-panic
condition. -/
def NavigationMode.currentPath : NavigationMode → Option FsPath
  | .inDirectory c => some c
  | .specified paths current => paths[current]?
  | .empty => none

/-- Rust `NavigationMode::next_path`: steps the mode and returns the found
path, if any. -/
def NavigationMode.nextPath (hash : Nat → Name → Nat) (fs : Fs)
    (args : NextPath) : NavigationMode → NavigationMode × Option FsPath
  | .inDirectory current =>
    match nextInDirectory hash fs current args with
    | some next => (.inDirectory next, some next)
    | none => (.inDirectory current, none)
  | .specified paths current =>
    match paths[current]? with
    | none => (.specified paths current, none)
    | some cur =>
      match nextInList hash paths cur args with
      | some next => (.specified paths next, paths[next]?)
      | none => (.specified paths current, none)
  | .empty => (.empty, none)

/-- The worker's owned state (Rust `State` in `actor.rs`). -/
structure ActorState where
  navigationMode : NavigationMode
  cache : Cache
  randomSeed : Nat
deriving DecidableEq

/-- Rust `State::current_path`. -/
def ActorState.currentPath (st : ActorState) : Option FsPath :=
  st.navigationMode.currentPath

/-- Rust `Actor::load_image_` and `Actor::load_image`: a cache hit clones
the shared entry; a miss decodes and inserts, with the insertion result
discarded (`_ = ...put_with_weight(...)`), so an insertion failure leaves
the cache unchanged and the decoded image is still returned. -/
def Actor.loadImage (decode : FsPath → Except DecodeError Image)
    (st : ActorState) (p : FsPath) : ActorState × Response :=
  match st.cache.get p with
  | (some img, cache') => ({ st with cache := cache' }, .loadImage p (.ok img))
  | (none, _) =>
    match decode p with
    | .error e => (st, .loadImage p (.error e))
    | .ok img =>
      match st.cache.put p img with
      | .ok cache' => ({ st with cache := cache' }, .loadImage p (.ok img))
      | .error _ => (st, .loadImage p (.ok img))

/-- Rust `Actor::next_path`: compute the candidate path; if none, respond
no-op, otherwise decode-or-fetch it. -/
def Actor.nextPath (decode : FsPath → Except DecodeError Image)
    (hash : Nat → Name → Nat) (fs : Fs) (st : ActorState)
    (args : ActorNextPath) : ActorState × Response :=
  let r := st.navigationMode.nextPath hash fs (args.withRandomSeed st.randomSeed)
  match r.2 with
  | none => ({ st with navigationMode := r.1 }, .noOp)
  | some p => Actor.loadImage decode { st with navigationMode := r.1 } p

/-- Rust `Actor::run_command`: a navigation command steps and loads; a
delete command removes the file (propagating the I/O error), then performs
the equivalent of `NextPath(Right, Simple)` when the deleted path was the
current one, and responds no-op otherwise. -/
def Actor.runCommand (decode : FsPath → Except DecodeError Image)
    (hash : Nat → Name → Nat) (fs : Fs) (st : ActorState) :
    Command → Except IoError (Fs × ActorState × Response)
  | .nextPath args =>
    let r := Actor.nextPath decode hash fs st args
    .ok (fs, r.1, r.2)
  | .deleteFile path =>
    match fs.removeFile path with
    | .error e => .error e
    | .ok fs' =>
      if st.currentPath = some path then
        let r := Actor.nextPath decode hash fs' st .RIGHT
        .ok (fs', r.1, r.2)
      else
        .ok (fs', st, .noOp)

/-- Rust `SendResult` from `actor.rs`. -/
inductive SendResult where
  | sent
  | alreadyWaiting
deriving DecidableEq

/-- Rust `Handle`: the UI-side proxy with its waiting flag and the two
bounded channels, modelled as queues. -/
structure Handle where
  waiting : Bool
  commandQueue : List Command
  responseQueue : List (Except IoError Response)
deriving DecidableEq

/-- Rust `Handle::send`. -/
def Handle.send (h : Handle) (c : Command) : SendResult × Handle :=
  if h.waiting then (.alreadyWaiting, h)
  else (.sent, { h with waiting := true, commandQueue := h.commandQueue ++ [c] })

/-- Rust `Handle::poll_response` (`try_recv`): non-blocking. -/
def Handle.pollResponse (h : Handle) : Option (Except IoError Response) × Handle :=
  match h.responseQueue with
  | [] => (none, h)
  | r :: rest =>
    (some r, { waiting := false, commandQueue := h.commandQueue, responseQueue := rest })

/-- The handle together with the worker side: `busy` records that the
worker currently holds a received command (or is producing the initial
load). -/
structure ActorSystem where
  handle : Handle
  busy : Bool
deriving DecidableEq

/-- Events of the protocol: the two handle operations, the worker's
blocking receive, and the worker's response enqueue. -/
inductive SysEvent where
  | send (c : Command)
  | poll
  | take
  | respond (r : Except IoError Response)
deriving DecidableEq

/-- One protocol step; worker events are no-ops when not enabled. -/
def ActorSystem.step (s : ActorSystem) : SysEvent → ActorSystem
  | .send c => { s with handle := (s.handle.send c).2 }
  | .poll => { s with handle := s.handle.pollResponse.2 }
  | .take =>
    match s.handle.commandQueue with
    | [] => s
    | _ :: rest =>
      { handle := { s.handle with commandQueue := rest }, busy := true }
  | .respond r =>
    if s.busy then
      { handle := { s.handle with responseQueue := s.handle.responseQueue ++ [r] },
        busy := false }
    else s

/-- The state right after `Handle::spawn`: waiting for the initial load,
which the worker is producing. -/
def ActorSystem.start : ActorSystem := ⟨⟨true, [], []⟩, true⟩

/-- Run a sequence of protocol events. -/
def ActorSystem.run (s : ActorSystem) (evs : List SysEvent) : ActorSystem :=
  evs.foldl ActorSystem.step s

/-- Number of outstanding commands: queued, held by the worker, or with
their response not yet polled. -/
def ActorSystem.outstanding (s : ActorSystem) : Nat :=
  s.handle.commandQueue.length + s.handle.responseQueue.length +
    (if s.busy then 1 else 0)

/-- Modelled from the spec: the UI `State` wrapper's response drain for the
actor of `actor.rs` (the `state/mod.rs` present in the tree targets an
older actor protocol): a LoadImage response makes its path and image the
current entry, a no-op response changes nothing. -/
structure UiState where
  current : Option (FsPath × Except DecodeError Image)
deriving DecidableEq

/-- Applying one polled response to the UI state. -/
def UiState.applyResponse (ui : UiState) : Response → UiState
  | .noOp => ui
  | .loadImage p img => ⟨some (p, img)⟩

/-- One navigation step over a fixed candidate list: the name chosen by
`NextPath::find_next`, or the current name when there is none. -/
def navStep (hash : Nat → Name → Nat) (np : NextPath) (items : List Name)
    (x : Name) : Name :=
  match np.findNext hash x items with
  | some r => r.1
  | none => x

/-- Iterated navigation steps. -/
def navIter (hash : Nat → Name → Nat) (np : NextPath) (items : List Name) :
    Nat → Name → Name
  | 0, x => x
  | k + 1, x => navIter hash np items k (navStep hash np items x)

/-- One scan step for a generic item comparison (helper form of
`navStep`). -/
def nextFrom (c : Name → Name → Ordering) (items : List Name) (x : Name) :
    Name :=
  match findNextC c .right x items with
  | some r => r.1
  | none => x

/-- Iterated `nextFrom`. -/
def iterFrom (c : Name → Name → Ordering) (items : List Name) :
    Nat → Name → Name
  | 0, x => x
  | k + 1, x => iterFrom c items k (nextFrom c items x)

/-- Rank of a name in a candidate list: how many candidates come strictly
before it under the comparison. -/
def rankOf (c : Name → Name → Ordering) (items : List Name) (x : Name) :
    Nat :=
  items.countP fun y => (c y x).isLT

/-- A comparison that is its own swap-dual. -/
def SwapSymm (c : Name → Name → Ordering) : Prop :=
  ∀ a b, c b a = (c a b).swap

/-! Basic facts about the comparators. -/

theorem ordSwapIsLT (o : Ordering) : o.swap.isLT = o.isGT := by
  cases o <;> rfl

theorem ordSwapIsGT (o : Ordering) : o.swap.isGT = o.isLT := by
  cases o <;> rfl

theorem ordThenSwap (a b : Ordering) : (a.then b).swap = a.swap.then b.swap := by
  cases a <;> rfl

theorem ordEqThen (b : Ordering) : Ordering.eq.then b = b := rfl

theorem ordThenEqEq {a b : Ordering} (h : a.then b = .eq) :
    a = .eq ∧ b = .eq := by
  cases a <;> simp_all [Ordering.then]

theorem eq_of_self_swap {o : Ordering} (h : o = o.swap) : o = .eq := by
  cases o <;> simp_all [Ordering.swap]

theorem forOrdering_swap (d : Direction) (o : Ordering) :
    d.forOrdering o.swap = (d.forOrdering o).swap := by
  cases d <;> rfl

theorem cmpNat_swap (a b : Nat) : cmpNat b a = (cmpNat a b).swap := by
  unfold cmpNat
  rcases Nat.lt_trichotomy a b with h | h | h
  · rw [if_pos h, if_neg (Nat.lt_asymm h), if_pos h]; rfl
  · subst h; simp [Nat.lt_irrefl]; rfl
  · rw [if_pos h, if_neg (Nat.lt_asymm h), if_pos h]; rfl

theorem cmpNat_lt {a b : Nat} : cmpNat a b = .lt ↔ a < b := by
  unfold cmpNat
  rcases Nat.lt_trichotomy a b with h | h | h
  · simp [h]
  · subst h; simp [Nat.lt_irrefl]
  · rw [if_neg (Nat.lt_asymm h), if_pos h]; simp; omega

theorem cmpNat_eq {a b : Nat} : cmpNat a b = .eq ↔ a = b := by
  unfold cmpNat
  rcases Nat.lt_trichotomy a b with h | h | h
  · simp [h]; omega
  · subst h; simp [Nat.lt_irrefl]
  · rw [if_neg (Nat.lt_asymm h), if_pos h]; simp; omega

theorem cmpBytes_swap : ∀ a b : Name, cmpBytes b a = (cmpBytes a b).swap
  | [], [] => rfl
  | [], _ :: _ => rfl
  | _ :: _, [] => rfl
  | a :: as, b :: bs => by
    show (cmpNat b a).then (cmpBytes bs as) = _
    rw [cmpNat_swap, cmpBytes_swap as bs, ← ordThenSwap]
    rfl

theorem splitCommon_swap :
    ∀ a b : Name, splitCommon b a = ((splitCommon a b).2, (splitCommon a b).1)
  | [], [] => rfl
  | [], _ :: _ => rfl
  | _ :: _, [] => rfl
  | a :: as, b :: bs => by
    by_cases h : a = b
    · subst h
      simp [splitCommon, splitCommon_swap as bs]
    · have h' : ¬ b = a := fun hc => h hc.symm
      simp [splitCommon, h, h']

theorem natCompare_swap : SwapSymm natCompare := by
  intro a b
  unfold natCompare
  rw [splitCommon_swap a b]
  rcases splitCommon a b with ⟨s, t⟩
  cases s with
  | nil =>
    cases t with
    | nil => rfl
    | cons y ys => exact cmpBytes_swap _ _
  | cons x xs =>
    cases t with
    | nil => exact cmpBytes_swap _ _
    | cons y ys =>
      show (if isDigit y && isDigit x then
              cmpNat (runVal (y :: ys)) (runVal (x :: xs))
            else cmpBytes (y :: ys) (x :: xs)) =
          (if isDigit x && isDigit y then
              cmpNat (runVal (x :: xs)) (runVal (y :: ys))
            else cmpBytes (x :: xs) (y :: ys)).swap
      rw [Bool.and_comm (isDigit y) (isDigit x), apply_ite Ordering.swap]
      by_cases hd : (isDigit x && isDigit y) = true
      · rw [if_pos hd, if_pos hd]; exact cmpNat_swap _ _
      · rw [if_neg hd, if_neg hd]; exact cmpBytes_swap _ _

theorem itemCmp_swap {κ : Type} (makeKey : Name → κ)
    (kcmp : κ → κ → Ordering)
    (hk : ∀ x y : κ, kcmp y x = (kcmp x y).swap) :
    SwapSymm (itemCmp makeKey kcmp) := by
  intro a b
  unfold itemCmp
  rw [hk, natCompare_swap, ← ordThenSwap]

theorem simpleCmp_swap : SwapSymm (itemCmp (fun _ => ()) fun _ _ => .eq) :=
  itemCmp_swap _ _ fun _ _ => rfl

theorem randomCmp_swap (h : Name → Nat) : SwapSymm (itemCmp h cmpNat) :=
  itemCmp_swap _ _ fun x y => cmpNat_swap x y

theorem swapSymm_refl_eq {c : Name → Name → Ordering} (hs : SwapSymm c)
    (a : Name) : c a a = .eq :=
  eq_of_self_swap (hs a a)

theorem before_refl_false {c : Name → Name → Ordering} (hs : SwapSymm c)
    (d : Direction) (a : Name) : d.before (c a a) = false := by
  rw [swapSymm_refl_eq hs]
  cases d <;> rfl

theorem after_eq_before {c : Name → Name → Ordering} (hs : SwapSymm c)
    (d : Direction) (a b : Name) : d.after (c a b) = d.before (c b a) := by
  rw [hs b a]
  unfold Direction.before Direction.after
  rw [forOrdering_swap, ordSwapIsGT]

/-! The scan loop of `find_next_impl`: structural lemmas. -/

theorem findNextLoop_append (c : Name → Name → Ordering) (d : Direction)
    (cur : Name) (l : List Name) (x : Name) :
    ∀ (idx : Nat) (na wa : Option (Name × Nat)),
    findNextLoop c d cur (l ++ [x]) idx na wa =
      (stepNext c d cur (findNextLoop c d cur l idx na wa).1 x (idx + l.length),
        stepWrap c d (findNextLoop c d cur l idx na wa).2 x (idx + l.length)) := by
  induction l with
  | nil => intro idx na wa; simp [findNextLoop]
  | cons n rest ih =>
    intro idx na wa
    show findNextLoop c d cur (rest ++ [x]) (idx + 1) _ _ = _
    rw [ih]
    have harith : idx + 1 + rest.length = idx + (n :: rest).length := by
      simp; omega
    rw [harith]
    rfl

theorem stepWrap_isSome (c : Name → Name → Ordering) (d : Direction)
    (wa : Option (Name × Nat)) (x : Name) (i : Nat) :
    (stepWrap c d wa x i).isSome := by
  cases wa <;> simp [stepWrap] <;> split <;> simp

theorem stepNext_isSome (c : Name → Name → Ordering) (d : Direction)
    (cur : Name) (na : Option (Name × Nat)) (x : Name) (i : Nat)
    (h : na.isSome) : (stepNext c d cur na x i).isSome := by
  cases na with
  | none => simp at h
  | some r => simp [stepNext]; split <;> simp

theorem loop_wrap_none (c : Name → Name → Ordering) (d : Direction)
    (cur : Name) :
    ∀ (l : List Name) (idx : Nat) (na wa : Option (Name × Nat)),
    (findNextLoop c d cur l idx na wa).2 = none ↔ wa = none ∧ l = [] := by
  intro l
  induction l with
  | nil => intro idx na wa; simp [findNextLoop]
  | cons n rest ih =>
    intro idx na wa
    show (findNextLoop c d cur rest (idx + 1) _ _).2 = none ↔ _
    rw [ih]
    have h := stepWrap_isSome c d wa n idx
    constructor
    · rintro ⟨h1, -⟩; rw [h1] at h; simp at h
    · rintro ⟨-, h2⟩; simp at h2

theorem loop_next_none (c : Name → Name → Ordering) (d : Direction)
    (cur : Name) :
    ∀ (l : List Name) (idx : Nat) (na wa : Option (Name × Nat)),
    (findNextLoop c d cur l idx na wa).1 = none ↔
      na = none ∧ ∀ y ∈ l, d.after (c y cur) = false := by
  intro l
  induction l with
  | nil => intro idx na wa; simp [findNextLoop]
  | cons n rest ih =>
    intro idx na wa
    show (findNextLoop c d cur rest (idx + 1) _ _).1 = none ↔ _
    rw [ih]
    constructor
    · rintro ⟨h1, h2⟩
      unfold stepNext at h1
      split at h1
      · exact absurd h1 (by simp)
      · rename_i hcond
        subst h1
        simp only [Option.all_none, Bool.and_true] at hcond
        refine ⟨rfl, ?_⟩
        intro y hy
        rcases List.mem_cons.mp hy with hy | hy
        · subst hy; simpa using hcond
        · exact h2 y hy
    · rintro ⟨h1, h2⟩
      subst h1
      have hn : d.after (c n cur) = false := h2 n (List.mem_cons_self n rest)
      refine ⟨?_, fun y hy => h2 y (List.mem_cons_of_mem n hy)⟩
      unfold stepNext
      rw [hn]
      simp

theorem loop_idx (c : Name → Name → Ordering) (d : Direction) (cur : Name) :
    ∀ l : List Name,
    (∀ r, (findNextLoop c d cur l 0 none none).1 = some r → l[r.2]? = some r.1) ∧
    (∀ r, (findNextLoop c d cur l 0 none none).2 = some r → l[r.2]? = some r.1) := by
  intro l
  induction l using List.reverseRecOn with
  | nil => constructor <;> (intro r h; simp [findNextLoop] at h)
  | append_singleton l x ih =>
    rw [findNextLoop_append]
    have hidx : ∀ (r : Name × Nat), l[r.2]? = some r.1 → (l ++ [x])[r.2]? = some r.1 := by
      intro r h
      have hb : r.2 < l.length := (List.getElem?_eq_some.mp h).1
      rw [List.getElem?_append, if_pos hb]
      exact h
    have hlast : (l ++ [x])[(0 + l.length : Nat)]? = some x := by
      simpa using List.getElem?_concat_length l x
    constructor
    · intro r h
      unfold stepNext at h
      split at h
      · cases h; exact hlast
      · exact hidx r (ih.1 r h)
    · intro r h
      unfold stepWrap at h
      split at h
      · cases h; exact hlast
      · exact hidx r (ih.2 r h)

theorem loop_spec_wrap (c : Name → Name → Ordering) (d : Direction)
    (cur : Name) (hs : SwapSymm c) :
    ∀ l : List Name,
    (∀ a b e, a ∈ l → b ∈ l → e ∈ l → d.before (c a b) = true →
      d.before (c b e) = true → d.before (c a e) = true) →
    ∀ r, (findNextLoop c d cur l 0 none none).2 = some r →
      r.1 ∈ l ∧ ∀ y ∈ l, d.before (c y r.1) = false := by
  intro l
  induction l using List.reverseRecOn with
  | nil => intro _ r h; simp [findNextLoop] at h
  | append_singleton l x ih =>
    intro htr r hr
    have htr' : ∀ a b e, a ∈ l → b ∈ l → e ∈ l → d.before (c a b) = true →
        d.before (c b e) = true → d.before (c a e) = true := by
      intro a b e ha hb he
      exact htr a b e (List.mem_append_left _ ha) (List.mem_append_left _ hb)
        (List.mem_append_left _ he)
    rw [findNextLoop_append] at hr
    simp only at hr
    unfold stepWrap at hr
    split at hr
    · rename_i hcond
      cases hr
      refine ⟨List.mem_append_right _ (List.mem_singleton_self x), ?_⟩
      intro y hy
      rcases List.mem_append.mp hy with hy | hy
      · by_contra hcon
        have hyx : d.before (c y x) = true := by
          cases h : d.before (c y x)
          · exact absurd h hcon
          · rfl
        rcases hw : (findNextLoop c d cur l 0 none none).2 with _ | w
        · have := (loop_wrap_none c d cur l 0 none none).mp hw
          rw [this.2] at hy
          simp at hy
        · obtain ⟨hwmem, hwmin⟩ := ih htr' w hw
          rw [hw] at hcond
          simp only [Option.all_some] at hcond
          have hxw : d.before (c x w.1) = true := hcond
          have := htr y x w.1 (List.mem_append_left _ hy)
            (List.mem_append_right _ (List.mem_singleton_self x))
            (List.mem_append_left _ hwmem) hyx hxw
          rw [hwmin y hy] at this
          exact absurd this (by simp)
      · rw [List.mem_singleton.mp hy]
        exact before_refl_false hs d x
    · rename_i hcond
      obtain ⟨hmem, hmin⟩ := ih htr' r hr
      refine ⟨List.mem_append_left _ hmem, ?_⟩
      intro y hy
      rcases List.mem_append.mp hy with hy | hy
      · exact hmin y hy
      · rw [List.mem_singleton.mp hy]
        rw [hr] at hcond
        simp only [Option.all_some] at hcond
        cases h : d.before (c x r.1)
        · rfl
        · exact absurd h hcond

theorem loop_spec_next (c : Name → Name → Ordering) (d : Direction)
    (cur : Name) (hs : SwapSymm c) :
    ∀ l : List Name,
    (∀ a b e, a ∈ l → b ∈ l → e ∈ l → d.before (c a b) = true →
      d.before (c b e) = true → d.before (c a e) = true) →
    ∀ r, (findNextLoop c d cur l 0 none none).1 = some r →
      r.1 ∈ l ∧ d.after (c r.1 cur) = true ∧
        ∀ y ∈ l, d.after (c y cur) = true → d.before (c y r.1) = false := by
  intro l
  induction l using List.reverseRecOn with
  | nil => intro _ r h; simp [findNextLoop] at h
  | append_singleton l x ih =>
    intro htr r hr
    have htr' : ∀ a b e, a ∈ l → b ∈ l → e ∈ l → d.before (c a b) = true →
        d.before (c b e) = true → d.before (c a e) = true := by
      intro a b e ha hb he
      exact htr a b e (List.mem_append_left _ ha) (List.mem_append_left _ hb)
        (List.mem_append_left _ he)
    rw [findNextLoop_append] at hr
    simp only at hr
    unfold stepNext at hr
    split at hr
    · rename_i hcond
      rw [Bool.and_eq_true] at hcond
      cases hr
      refine ⟨List.mem_append_right _ (List.mem_singleton_self x), hcond.1, ?_⟩
      intro y hy hya
      rcases List.mem_append.mp hy with hy | hy
      · by_contra hcon
        have hyx : d.before (c y x) = true := by
          cases h : d.before (c y x)
          · exact absurd h hcon
          · rfl
        rcases hn : (findNextLoop c d cur l 0 none none).1 with _ | nx
        · have := ((loop_next_none c d cur l 0 none none).mp hn).2 y hy
          rw [this] at hya
          exact absurd hya (by simp)
        · obtain ⟨hnmem, -, hnmin⟩ := ih htr' nx hn
          rw [hn] at hcond
          have hxn : d.before (c x nx.1) = true := by
            have := hcond.2
            simpa [Option.all_some] using this
          have := htr y x nx.1 (List.mem_append_left _ hy)
            (List.mem_append_right _ (List.mem_singleton_self x))
            (List.mem_append_left _ hnmem) hyx hxn
          rw [hnmin y hy hya] at this
          exact absurd this (by simp)
      · rw [List.mem_singleton.mp hy]
        exact before_refl_false hs d x
    · rename_i hcond
      obtain ⟨hmem, hafter, hmin⟩ := ih htr' r hr
      refine ⟨List.mem_append_left _ hmem, hafter, ?_⟩
      intro y hy hya
      rcases List.mem_append.mp hy with hy | hy
      · exact hmin y hy hya
      · rw [List.mem_singleton.mp hy] at hya ⊢
        rw [hr] at hcond
        rw [Bool.and_eq_true] at hcond
        push_neg at hcond
        cases h : d.before (c x r.1)
        · rfl
        · exfalso
          have hall : ((some r).all fun nx => d.before (c x nx.1)) = true := by
            simpa [Option.all_some] using h
          exact hcond hya hall

theorem findNextC_none (c : Name → Name → Ordering) (d : Direction)
    (cur : Name) (l : List Name) :
    findNextC c d cur l = none ↔ l = [] := by
  unfold findNextC
  constructor
  · intro h
    rcases hn : (findNextLoop c d cur l 0 none none).1 with _ | r
    · rcases hw : (findNextLoop c d cur l 0 none none).2 with _ | w
      · exact ((loop_wrap_none c d cur l 0 none none).mp hw).2
      · rw [hn, hw] at h; simp [optOr] at h
    · rw [hn] at h; simp [optOr] at h
  · intro h; subst h; rfl

theorem findNextC_spec (c : Name → Name → Ordering) (d : Direction)
    (cur : Name) (l : List Name) (hs : SwapSymm c)
    (htr : ∀ a b e, a ∈ l → b ∈ l → e ∈ l → d.before (c a b) = true →
      d.before (c b e) = true → d.before (c a e) = true)
    (hl : l ≠ []) :
    ∃ nm i, findNextC c d cur l = some (nm, i) ∧ l[i]? = some nm ∧
      (d.after (c nm cur) = true ∨ ∀ y ∈ l, d.after (c y cur) = false) ∧
      (∀ y ∈ l, d.after (c y cur) = true → d.before (c y nm) = false) ∧
      ((∀ y ∈ l, d.after (c y cur) = false) →
        ∀ y ∈ l, d.before (c y nm) = false) := by
  unfold findNextC
  rcases hn : (findNextLoop c d cur l 0 none none).1 with _ | r
  · have hnone := (loop_next_none c d cur l 0 none none).mp hn
    rcases hw : (findNextLoop c d cur l 0 none none).2 with _ | w
    · exact absurd ((loop_wrap_none c d cur l 0 none none).mp hw).2 hl
    · obtain ⟨hmem, hmin⟩ := loop_spec_wrap c d cur hs l htr w hw
      refine ⟨w.1, w.2, by simp [optOr], (loop_idx c d cur l).2 w hw, ?_, ?_, ?_⟩
      · exact Or.inr hnone.2
      · intro y hy hya
        rw [hnone.2 y hy] at hya
        exact absurd hya (by simp)
      · intro _ y hy
        exact hmin y hy
  · obtain ⟨hmem, hafter, hmin⟩ := loop_spec_next c d cur hs l htr r hn
    refine ⟨r.1, r.2, by simp [optOr], (loop_idx c d cur l).1 r hn, ?_, ?_, ?_⟩
    · exact Or.inl hafter
    · exact hmin
    · intro hall
      rw [hall r.1 hmem] at hafter
      exact absurd hafter (by simp)

/-! Counting helpers for the cycle argument. -/

theorem countP_lt_of_mem_false {α : Type} (p : α → Bool) :
    ∀ l : List α, ∀ x ∈ l, p x = false → l.countP p < l.length := by
  intro l
  induction l with
  | nil => intro x hx; simp at hx
  | cons a l ih =>
    intro x hx hpx
    rcases List.mem_cons.mp hx with hx | hx
    · subst hx
      rw [List.countP_cons, hpx]
      simp only [List.length_cons]
      have := List.countP_le_length p (l := l)
      simp only [Bool.false_eq_true, if_false]
      omega
    · have hih := ih x hx hpx
      rw [List.countP_cons]
      simp only [List.length_cons]
      have hite : (if p a = true then 1 else 0) ≤ 1 := by split <;> omega
      omega

theorem countP_strict_mono {α : Type} [DecidableEq α] (p q : α → Bool) :
    ∀ l : List α, (∀ z ∈ l, p z = true → q z = true) → ∀ x ∈ l,
      q x = true → p x = false → l.countP p < l.countP q := by
  intro l
  induction l with
  | nil => intro _ x hx; simp at hx
  | cons a l ih =>
    intro hmono x hx hqx hpx
    have hmono' : ∀ z ∈ l, p z = true → q z = true := fun z hz =>
      hmono z (List.mem_cons_of_mem a hz)
    have hle : l.countP p ≤ l.countP q := by
      apply List.countP_mono_left
      intro z hz
      exact fun h => hmono' z hz h
    rw [List.countP_cons, List.countP_cons]
    have hpa : p a = true → q a = true := hmono a (List.mem_cons_self a l)
    have hqa : (if p a = true then 1 else 0) ≤ (if q a = true then 1 else 0) := by
      cases h1 : p a with
      | false => simp
      | true => rw [hpa h1]
    rcases List.mem_cons.mp hx with hx | hx
    · subst hx
      rw [hpx, hqx]
      simp only [Bool.false_eq_true, if_false, if_true]
      omega
    · have hstep := ih hmono' x hx hqx hpx
      omega

theorem countP_or_eq {α : Type} [DecidableEq α] (p : α → Bool) (x : α) :
    ∀ l : List α, x ∉ l →
      l.countP (fun z => p z || decide (z = x)) = l.countP p := by
  intro l
  induction l with
  | nil => intro _; rfl
  | cons a l ih =>
    intro hx
    have hax : ¬ a = x := fun h => hx (by rw [h]; exact List.mem_cons_self x l)
    have hlx : x ∉ l := fun h => hx (List.mem_cons_of_mem a h)
    rw [List.countP_cons, List.countP_cons, ih hlx]
    simp [hax]

theorem countP_or_eq_succ {α : Type} [DecidableEq α] (p : α → Bool) (x : α) :
    ∀ l : List α, l.Nodup → x ∈ l → p x = false →
      l.countP (fun z => p z || decide (z = x)) = l.countP p + 1 := by
  intro l
  induction l with
  | nil => intro _ hx; simp at hx
  | cons a l ih =>
    intro hnd hx hpx
    rcases List.mem_cons.mp hx with hx | hx
    · subst hx
      have hxl : x ∉ l := (List.nodup_cons.mp hnd).1
      rw [List.countP_cons, List.countP_cons, countP_or_eq p x l hxl, hpx]
      simp
    · have hax : ¬ a = x := by
        intro h
        subst h
        exact (List.nodup_cons.mp hnd).1 hx
      rw [List.countP_cons, List.countP_cons,
        ih (List.nodup_cons.mp hnd).2 hx hpx]
      simp [hax]
      omega

theorem countP_ne_nodup {α : Type} [DecidableEq α] (x : α) :
    ∀ l : List α, l.Nodup → x ∈ l →
      l.countP (fun z => !decide (z = x)) = l.length - 1 := by
  intro l
  induction l with
  | nil => intro _ hx; simp at hx
  | cons a l ih =>
    intro hnd hx
    rcases List.mem_cons.mp hx with hx | hx
    · subst hx
      have hxl : x ∉ l := (List.nodup_cons.mp hnd).1
      rw [List.countP_cons]
      have : l.countP (fun z => !decide (z = x)) = l.countP (fun _ => true) := by
        apply List.countP_congr
        intro z hz
        have : ¬ z = x := fun h => hxl (h ▸ hz)
        simp [this]
      rw [this, List.countP_true]
      simp
    · have hax : ¬ a = x := by
        intro h
        subst h
        exact (List.nodup_cons.mp hnd).1 hx
      rw [List.countP_cons, ih (List.nodup_cons.mp hnd).2 hx]
      have hlen : 1 ≤ l.length := List.length_pos.mpr (List.ne_nil_of_mem hx)
      simp [hax]
      omega

theorem isLT_iff (o : Ordering) : o.isLT = true ↔ o = .lt := by
  cases o <;> simp [Ordering.isLT]

theorem isGT_iff (o : Ordering) : o.isGT = true ↔ o = .gt := by
  cases o <;> simp [Ordering.isGT]

/-- The hypotheses under which the key-then-name order behaves as a strict
linear order on a candidate list: swap-duality, transitivity and no ties
between distinct candidates. -/
structure CycleCtx (c : Name → Name → Ordering) (items : List Name) : Prop where
  hs : SwapSymm c
  htr : ∀ a b e, a ∈ items → b ∈ items → e ∈ items →
    c a b = .lt → c b e = .lt → c a e = .lt
  hne : ∀ a b, a ∈ items → b ∈ items → a ≠ b → c a b ≠ .eq
  hnd : items.Nodup

theorem CycleCtx.total {c : Name → Name → Ordering} {items : List Name}
    (ctx : CycleCtx c items) {a b : Name} (ha : a ∈ items) (hb : b ∈ items)
    (hab : a ≠ b) : c a b = .lt ∨ c b a = .lt := by
  cases h : c a b with
  | lt => exact Or.inl rfl
  | eq => exact absurd h (ctx.hne a b ha hb hab)
  | gt =>
    right
    rw [ctx.hs a b, h]
    rfl

theorem rankOf_lt_length {c : Name → Name → Ordering} {items : List Name}
    (hs : SwapSymm c) {x : Name} (hx : x ∈ items) :
    rankOf c items x < items.length := by
  apply countP_lt_of_mem_false _ items x hx
  rw [swapSymm_refl_eq hs]
  rfl

theorem rankOf_inj {c : Name → Name → Ordering} {items : List Name}
    (ctx : CycleCtx c items) {x y : Name} (hx : x ∈ items) (hy : y ∈ items)
    (h : rankOf c items x = rankOf c items y) : x = y := by
  by_contra hxy
  have key : ∀ u v, u ∈ items → v ∈ items → c u v = .lt →
      rankOf c items u < rankOf c items v := by
    intro u v hu hv huv
    apply countP_strict_mono _ _ items _ u hu
    · rw [isLT_iff]; exact huv
    · rw [swapSymm_refl_eq ctx.hs]; rfl
    · intro z hz hzu
      rw [isLT_iff] at hzu ⊢
      exact ctx.htr z u v hz hu hv hzu huv
  rcases ctx.total hx hy hxy with hlt | hlt
  · exact absurd h (Nat.ne_of_lt (key x y hx hy hlt))
  · exact absurd h.symm (Nat.ne_of_lt (key y x hy hx hlt))

theorem nextFrom_mem_rank {c : Name → Name → Ordering} {items : List Name}
    (ctx : CycleCtx c items) {x : Name} (hx : x ∈ items) :
    nextFrom c items x ∈ items ∧
      rankOf c items (nextFrom c items x) =
        (rankOf c items x + 1) % items.length := by
  have hlne : items ≠ [] := List.ne_nil_of_mem hx
  have hn : 0 < items.length := List.length_pos.mpr hlne
  have htrB : ∀ a b e, a ∈ items → b ∈ items → e ∈ items →
      Direction.right.before (c a b) = true →
      Direction.right.before (c b e) = true →
      Direction.right.before (c a e) = true := by
    intro a b e ha hb he h1 h2
    have h1' : (c a b).isLT = true := h1
    have h2' : (c b e).isLT = true := h2
    show (c a e).isLT = true
    rw [isLT_iff] at h1' h2' ⊢
    exact ctx.htr a b e ha hb he h1' h2'
  obtain ⟨nm, i, hfind, hidx, hcase, hminnext, hminwrap⟩ :=
    findNextC_spec c .right x items ctx.hs htrB hlne
  have hnmem : nm ∈ items := List.getElem?_mem hidx
  have hnf : nextFrom c items x = nm := by
    unfold nextFrom
    rw [hfind]
  rw [hnf]
  refine ⟨hnmem, ?_⟩
  rcases hcase with hafter | hnone
  · -- the current item is not the maximum: the result is the least
    -- candidate strictly greater, whose rank is one more
    have hlt : c x nm = .lt := by
      have h1 : (c nm x).isGT = true := hafter
      rw [isGT_iff] at h1
      rw [ctx.hs nm x, h1]
      rfl
    have hset : ∀ z ∈ items,
        (c z nm).isLT = ((c z x).isLT || decide (z = x)) := by
      intro z hz
      by_cases hzx : z = x
      · subst hzx
        have hd : decide (z = z) = true := by simp
        rw [hd, Bool.or_true, isLT_iff]
        exact hlt
      · have hd : decide (z = x) = false := by simp [hzx]
        rw [hd, Bool.or_false]
        cases hzcase : c z x with
        | lt =>
          have : c z nm = .lt :=
            ctx.htr z x nm hz hx hnmem hzcase hlt
          rw [this]
        | eq => exact absurd hzcase (ctx.hne z x hz hx hzx)
        | gt =>
          have hza : Direction.right.after (c z x) = true := by
            show (c z x).isGT = true
            rw [isGT_iff]
            exact hzcase
          have := hminnext z hz hza
          have hfalse : (c z nm).isLT = false := this
          rw [hfalse]
          rfl
    have hcong : rankOf c items nm =
        items.countP fun z => (c z x).isLT || decide (z = x) := by
      apply List.countP_congr
      intro z hz
      rw [hset z hz]
    have hsucc : rankOf c items nm = rankOf c items x + 1 := by
      rw [hcong]
      apply countP_or_eq_succ _ x items ctx.hnd hx
      rw [swapSymm_refl_eq ctx.hs]
      rfl
    rw [hsucc]
    have : rankOf c items x + 1 < items.length := by
      have := rankOf_lt_length ctx.hs hnmem
      omega
    rw [Nat.mod_eq_of_lt this]
  · -- the current item is the maximum: the result is the least candidate
    -- overall, of rank zero, and the current rank is the largest
    have hmin := hminwrap hnone
    have hzero : rankOf c items nm = 0 := by
      apply List.countP_eq_zero.mpr
      intro z hz
      have : (c z nm).isLT = false := hmin z hz
      simp [this]
    have htop : rankOf c items x = items.length - 1 := by
      have hcong : rankOf c items x =
          items.countP fun z => !decide (z = x) := by
        apply List.countP_congr
        intro z hz
        by_cases hzx : z = x
        · subst hzx
          rw [swapSymm_refl_eq ctx.hs]
          simp [Ordering.isLT]
        · have hd : decide (z = x) = false := by simp [hzx]
          rw [hd, Bool.not_false]
          rcases ctx.total hz hx hzx with hlt | hlt
          · simp [hlt, Ordering.isLT]
          · exfalso
            have hza : Direction.right.after (c z x) = true := by
              show (c z x).isGT = true
              rw [isGT_iff, ctx.hs x z, hlt]
              rfl
            have := hnone z hz
            rw [this] at hza
            exact absurd hza (by simp)
      rw [hcong]
      exact countP_ne_nodup x items ctx.hnd hx
    rw [hzero, htop, Nat.sub_add_cancel hn, Nat.mod_self]

theorem iterFrom_mem_rank {c : Name → Name → Ordering} {items : List Name}
    (ctx : CycleCtx c items) :
    ∀ (k : Nat) {x : Name}, x ∈ items →
      iterFrom c items k x ∈ items ∧
        rankOf c items (iterFrom c items k x) =
          (rankOf c items x + k) % items.length := by
  intro k
  induction k with
  | zero =>
    intro x hx
    refine ⟨hx, ?_⟩
    have := rankOf_lt_length ctx.hs hx
    show rankOf c items x = _
    rw [Nat.add_zero, Nat.mod_eq_of_lt this]
  | succ k ih =>
    intro x hx
    obtain ⟨hmem, hrank⟩ := nextFrom_mem_rank ctx hx
    obtain ⟨hmem', hrank'⟩ := ih hmem
    refine ⟨hmem', ?_⟩
    show rankOf c items (iterFrom c items k (nextFrom c items x)) = _
    rw [hrank', hrank, Nat.mod_add_mod]
    have : rankOf c items x + 1 + k = rankOf c items x + (k + 1) := by omega
    rw [this]

theorem mod_window {n k k' r : Nat} (hn : 0 < n) (h1 : 1 ≤ k) (h2 : k ≤ n)
    (h3 : 1 ≤ k') (h4 : k' ≤ n) (h : (r + k) % n = (r + k') % n) : k = k' := by
  have hmod : k % n = k' % n := Nat.ModEq.add_left_cancel' r h
  have e1 : k % n = if k = n then 0 else k := by
    split
    · rename_i hh; rw [hh, Nat.mod_self]
    · rename_i hh; exact Nat.mod_eq_of_lt (by omega)
  have e2 : k' % n = if k' = n then 0 else k' := by
    split
    · rename_i hh; rw [hh, Nat.mod_self]
    · rename_i hh; exact Nat.mod_eq_of_lt (by omega)
  rw [e1, e2] at hmod
  split at hmod <;> split at hmod <;> omega

theorem cycle_spec {c : Name → Name → Ordering} {items : List Name}
    (ctx : CycleCtx c items) {start : Name} (hstart : start ∈ items) :
    iterFrom c items items.length start = start ∧
      ∀ m ∈ items, ∃ k, (1 ≤ k ∧ k ≤ items.length ∧
          iterFrom c items k start = m) ∧
        ∀ k', 1 ≤ k' → k' ≤ items.length →
          iterFrom c items k' start = m → k' = k := by
  have hn : 0 < items.length := List.length_pos.mpr (List.ne_nil_of_mem hstart)
  have hr : rankOf c items start < items.length := rankOf_lt_length ctx.hs hstart
  have hiter := iterFrom_mem_rank ctx
  constructor
  · obtain ⟨hmem, hrank⟩ := hiter items.length hstart
    apply rankOf_inj ctx hmem hstart
    rw [hrank, Nat.add_mod_right, Nat.mod_eq_of_lt hr]
  · intro m hm
    have hrm : rankOf c items m < items.length := rankOf_lt_length ctx.hs hm
    obtain ⟨k, hk1, hk2, hkr⟩ : ∃ k, 1 ≤ k ∧ k ≤ items.length ∧
        (rankOf c items start + k) % items.length = rankOf c items m := by
      by_cases hcase : rankOf c items start < rankOf c items m
      · refine ⟨rankOf c items m - rankOf c items start, by omega, by omega, ?_⟩
        have h5 : rankOf c items start +
            (rankOf c items m - rankOf c items start) = rankOf c items m := by
          omega
        rw [h5, Nat.mod_eq_of_lt hrm]
      · refine ⟨items.length - (rankOf c items start - rankOf c items m),
          by omega, by omega, ?_⟩
        have h5 : rankOf c items start +
            (items.length - (rankOf c items start - rankOf c items m)) =
            items.length + rankOf c items m := by
          omega
        rw [h5, Nat.add_mod_left, Nat.mod_eq_of_lt hrm]
    refine ⟨k, ⟨hk1, hk2, ?_⟩, ?_⟩
    · obtain ⟨hmem, hrank⟩ := hiter k hstart
      apply rankOf_inj ctx hmem hm
      rw [hrank, hkr]
    · intro k' h1 h2 hk'
      obtain ⟨hmem, hrank⟩ := hiter k' hstart
      rw [hk'] at hrank
      exact mod_window hn h1 h2 hk1 hk2 (by rw [hkr]; exact hrank.symm)

theorem navStep_simple (hash : Nat → Name → Nat) (items : List Name)
    (x : Name) :
    navStep hash ⟨.right, .simple⟩ items x =
      nextFrom (itemCmp (fun _ => ()) fun _ _ => .eq) items x := rfl

theorem navIter_simple (hash : Nat → Name → Nat) (items : List Name) :
    ∀ (k : Nat) (x : Name),
      navIter hash ⟨.right, .simple⟩ items k x =
        iterFrom (itemCmp (fun _ => ()) fun _ _ => .eq) items k x := by
  intro k
  induction k with
  | zero => intro x; rfl
  | succ k ih =>
    intro x
    show navIter hash ⟨.right, .simple⟩ items k _ = iterFrom _ items k _
    rw [navStep_simple]
    exact ih _

theorem navStep_random (hash : Nat → Name → Nat) (seed : Nat)
    (items : List Name) (x : Name) :
    navStep hash ⟨.right, .random seed⟩ items x =
      nextFrom (itemCmp (hash seed) cmpNat) items x := rfl

theorem navIter_random (hash : Nat → Name → Nat) (seed : Nat)
    (items : List Name) :
    ∀ (k : Nat) (x : Name),
      navIter hash ⟨.right, .random seed⟩ items k x =
        iterFrom (itemCmp (hash seed) cmpNat) items k x := by
  intro k
  induction k with
  | zero => intro x; rfl
  | succ k ih =>
    intro x
    show navIter hash ⟨.right, .random seed⟩ items k _ = iterFrom _ items k _
    rw [navStep_random]
    exact ih _

theorem ordThenNeEq {o : Ordering} (p : Ordering) (h : o ≠ .eq) :
    o.then p = o := by
  cases o with
  | lt => rfl
  | eq => exact absurd rfl h
  | gt => rfl

/-! Claim theorems. -/

/-- C2 counterexample: for the singleton candidate list containing exactly
the current name, `find_next_impl` returns that element (at index 0), not
none — refuting "none when the candidate set contains only the current
item". -/
theorem eo2_c2_counterexample :
    findNextImpl (fun _ => ()) (fun _ _ => .eq) .right [97] [[97]] =
      some ([97], 0) := by decide

/-- C2 (amended): `find_next_impl` (any key maker, any direction, any mode)
returns none if and only if the candidate sequence is empty; in particular
a singleton candidate equal to the current name is returned itself rather
than producing none. -/
theorem eo2_c2_none_iff_empty {κ : Type} (makeKey : Name → κ)
    (kcmp : κ → κ → Ordering) (d : Direction) (cur : Name)
    (items : List Name) :
    (findNextImpl makeKey kcmp d cur items = none ↔ items = []) ∧
      findNextImpl makeKey kcmp d cur [cur] = some (cur, 0) := by
  constructor
  · exact findNextC_none (itemCmp makeKey kcmp) d cur items
  · show optOr (stepNext (itemCmp makeKey kcmp) d cur none cur 0)
        (stepWrap (itemCmp makeKey kcmp) d none cur 0) = some (cur, 0)
    unfold stepNext stepWrap
    simp only [Option.all_none, Bool.and_true]
    split <;> simp [optOr]

/-- C3 counterexample: with current name "z" (no candidate is greater) and
candidates "10", "1x", "2", Simple-mode right navigation wraps and returns
"2", although candidate "1x" is strictly smaller than "2" under the natural
comparator — the returned element is not the minimum of the candidate set
(the comparator's numeric/byte-wise mix is not transitive). -/
theorem eo2_c3_counterexample :
    findNextImpl (fun _ => ()) (fun _ _ => .eq) .right [122]
        [[49, 48], [49, 120], [50]] = some ([50], 2) ∧
      (∀ y ∈ [[49, 48], [49, 120], [50]], natCompare ([122] : Name) y ≠ .lt) ∧
      ([49, 120] : Name) ∈ [[49, 48], [49, 120], [50]] ∧
      natCompare [49, 120] [50] = .lt := by decide

/-- C3 (amended): whenever the natural order behaves transitively on the
candidate list (in the chosen direction), Simple-mode navigation returns a
candidate, together with its enumeration index, that is minimal among the
candidates strictly after the current name when one exists, and otherwise
minimal in the whole candidate list (the wrap case); direction Left is the
mirror via the direction-reversed comparisons. -/
theorem eo2_c3_minimum (d : Direction) (cur : Name) (items : List Name)
    (htr : ∀ a ∈ items, ∀ b ∈ items, ∀ e ∈ items,
      d.before (natCompare a b) = true → d.before (natCompare b e) = true →
      d.before (natCompare a e) = true)
    (hne : items ≠ []) :
    ∃ nm i, findNextImpl (fun _ => ()) (fun _ _ => .eq) d cur items =
        some (nm, i) ∧
      items[i]? = some nm ∧
      (d.after (natCompare nm cur) = true ∨
        ∀ y ∈ items, d.after (natCompare y cur) = false) ∧
      (∀ y ∈ items, d.after (natCompare y cur) = true →
        d.before (natCompare y nm) = false) ∧
      ((∀ y ∈ items, d.after (natCompare y cur) = false) →
        ∀ y ∈ items, d.before (natCompare y nm) = false) := by
  have htr' : ∀ a b e, a ∈ items → b ∈ items → e ∈ items →
      d.before (itemCmp (fun _ => ()) (fun _ _ => .eq) a b) = true →
      d.before (itemCmp (fun _ => ()) (fun _ _ => .eq) b e) = true →
      d.before (itemCmp (fun _ => ()) (fun _ _ => .eq) a e) = true :=
    fun a b e ha hb he => htr a ha b hb e he
  exact findNextC_spec (itemCmp (fun _ => ()) fun _ _ => .eq) d cur items
    simpleCmp_swap htr' hne

/-- C3 witness. -/
theorem eo2_c3_minimum_witness :
    (∀ a ∈ [[97], [99]], ∀ b ∈ [[97], [99]], ∀ e ∈ [[97], [99]],
      Direction.right.before (natCompare a b) = true →
      Direction.right.before (natCompare b e) = true →
      Direction.right.before (natCompare a e) = true) ∧
      (∃ nm i, findNextImpl (fun _ => ()) (fun _ _ => .eq) .right [98]
          [[97], [99]] = some (nm, i) ∧
        ([[97], [99]] : List Name)[i]? = some nm ∧
        (Direction.right.after (natCompare nm [98]) = true ∨
          ∀ y ∈ [[97], [99]], Direction.right.after (natCompare y [98]) = false) ∧
        (∀ y ∈ [[97], [99]], Direction.right.after (natCompare y [98]) = true →
          Direction.right.before (natCompare y nm) = false) ∧
        ((∀ y ∈ [[97], [99]], Direction.right.after (natCompare y [98]) = false) →
          ∀ y ∈ [[97], [99]], Direction.right.before (natCompare y nm) = false)) :=
  ⟨by decide, eo2_c3_minimum .right [98] [[97], [99]] (by decide) (by decide)⟩

/-- C4 counterexample: the comparator described by the spec is not a strict
total order: the distinct strings "01" and "1" compare equal, and
transitivity fails outright, with the strict cycle "2" < "10" < "1x" < "2". -/
theorem eo2_c4_counterexample :
    (natCompare [48, 49] [49] = .eq ∧ ([48, 49] : Name) ≠ [49]) ∧
      natCompare [50] [49, 48] = .lt ∧
      natCompare [49, 48] [49, 120] = .lt ∧
      natCompare [49, 120] [50] = .lt := by decide

/-- C4 (amended): the natural comparator computes the spec's algorithm by
construction (longest common byte prefix, then numeric comparison of
leading digit runs when both suffixes start with digits, else byte-wise
comparison); it is antisymmetric in the swap sense (comparing in the other
order yields the reversed result, so exactly one of lt/gt/eq holds for each
pair), it is reflexive, and it orders "img2" before "img10" numerically;
but it is not a strict total order, since distinct strings may compare
equal and transitivity can fail. -/
theorem eo2_c4_comparator :
    (∀ a b : Name, natCompare b a = (natCompare a b).swap) ∧
      (∀ a : Name, natCompare a a = .eq) ∧
      natCompare [105, 109, 103, 50] [105, 109, 103, 49, 48] = .lt :=
  ⟨fun a b => natCompare_swap a b,
    fun a => swapSymm_refl_eq natCompare_swap a,
    by decide⟩

/-- C9 counterexample: for the candidate set {"01", "1"} of two distinct
names — which the natural comparator nevertheless ties — starting from
"01", Simple-mode right navigation returns "01" itself at every step, so
after n = 2 steps the member "1" has never been visited. -/
theorem eo2_c9_counterexample :
    navIter (fun _ _ => 0) ⟨.right, .simple⟩ [[48, 49], [49]] 1 [48, 49] =
        [48, 49] ∧
      navIter (fun _ _ => 0) ⟨.right, .simple⟩ [[48, 49], [49]] 2 [48, 49] =
        [48, 49] ∧
      ([49] : Name) ∈ [[48, 49], [49]] ∧ ([48, 49] : Name) ≠ [49] := by decide

/-- C9 (amended): for a candidate set on which the natural comparator is a
strict linear order (no ties between distinct members, and transitive),
applying Simple-mode right navigation n = length times starting from any
member returns to that member, and each member of the set is visited at
exactly one step k with 1 ≤ k ≤ n (for n = 1, the single step returns the
starting member itself). -/
theorem eo2_c9_simple_cycle (hash : Nat → Name → Nat) (items : List Name)
    (start : Name) (hnd : items.Nodup)
    (htr : ∀ a ∈ items, ∀ b ∈ items, ∀ e ∈ items,
      natCompare a b = .lt → natCompare b e = .lt → natCompare a e = .lt)
    (hne : ∀ a ∈ items, ∀ b ∈ items, a ≠ b → natCompare a b ≠ .eq)
    (hstart : start ∈ items) :
    navIter hash ⟨.right, .simple⟩ items items.length start = start ∧
      ∀ m ∈ items, ∃ k, (1 ≤ k ∧ k ≤ items.length ∧
          navIter hash ⟨.right, .simple⟩ items k start = m) ∧
        ∀ k', 1 ≤ k' → k' ≤ items.length →
          navIter hash ⟨.right, .simple⟩ items k' start = m → k' = k := by
  have ctx : CycleCtx (itemCmp (fun _ => ()) fun _ _ => .eq) items :=
    ⟨simpleCmp_swap, fun a b e ha hb he => htr a ha b hb e he,
      fun a b ha hb => hne a ha b hb, hnd⟩
  have := cycle_spec ctx hstart
  simp only [navIter_simple]
  exact this

/-- C9 witness. -/
theorem eo2_c9_simple_cycle_witness :
    ([[97], [98], [99]] : List Name).Nodup ∧
      ([97] : Name) ∈ [[97], [98], [99]] ∧
      (navIter (fun _ _ => 0) ⟨.right, .simple⟩ [[97], [98], [99]] 3 [97] =
          [97] ∧
        ∀ m ∈ [[97], [98], [99]], ∃ k, (1 ≤ k ∧ k ≤ 3 ∧
            navIter (fun _ _ => 0) ⟨.right, .simple⟩ [[97], [98], [99]] k [97] =
              m) ∧
          ∀ k', 1 ≤ k' → k' ≤ 3 →
            navIter (fun _ _ => 0) ⟨.right, .simple⟩ [[97], [98], [99]] k' [97] =
              m → k' = k) :=
  ⟨by decide, by decide,
    eo2_c9_simple_cycle (fun _ _ => 0) [[97], [98], [99]] [97] (by decide)
      (by decide) (by decide) (by decide)⟩

/-- C5 counterexample: a hash collision on the two distinct names "01" and
"1" — which the natural comparator ties, so the name tie-break does not
resolve the collision — breaks the full-cycle property: starting from "01",
Random-mode right navigation returns "01" at every step and the member "1"
is never visited in n = 2 steps. -/
theorem eo2_c5_counterexample :
    navIter (fun _ _ => 0) ⟨.right, .random 0⟩ [[48, 49], [49]] 1 [48, 49] =
        [48, 49] ∧
      navIter (fun _ _ => 0) ⟨.right, .random 0⟩ [[48, 49], [49]] 2 [48, 49] =
        [48, 49] ∧
      ([49] : Name) ∈ [[48, 49], [49]] ∧ ([48, 49] : Name) ≠ [49] := by decide

/-- C5 (amended): for any per-seed key assignment (the fast hash is
modelled as an abstract deterministic function of the seed and the name)
that is collision-free on the candidate set of distinct names, Random-mode
right navigation from any member visits every member at exactly one of the
steps 1..n and returns to the start after n = length steps,
deterministically in the seed; when a collision falls on distinct names
that the natural comparator ties, the name tie-break does not restore a
strict order and the cycle can fail. -/
theorem eo2_c5_random_cycle (hash : Nat → Name → Nat) (seed : Nat)
    (items : List Name) (start : Name) (hnd : items.Nodup)
    (hinj : ∀ a ∈ items, ∀ b ∈ items, a ≠ b → hash seed a ≠ hash seed b)
    (hstart : start ∈ items) :
    navIter hash ⟨.right, .random seed⟩ items items.length start = start ∧
      ∀ m ∈ items, ∃ k, (1 ≤ k ∧ k ≤ items.length ∧
          navIter hash ⟨.right, .random seed⟩ items k start = m) ∧
        ∀ k', 1 ≤ k' → k' ≤ items.length →
          navIter hash ⟨.right, .random seed⟩ items k' start = m → k' = k := by
  have hkey : ∀ a b, a ∈ items → b ∈ items →
      itemCmp (hash seed) cmpNat a b = .lt → hash seed a < hash seed b := by
    intro a b ha hb h
    by_cases hab : a = b
    · subst hab
      rw [swapSymm_refl_eq (randomCmp_swap (hash seed)) a] at h
      exact absurd h (by simp)
    · have hne' : cmpNat (hash seed a) (hash seed b) ≠ .eq := by
        intro hc
        exact hinj a ha b hb hab (cmpNat_eq.mp hc)
      unfold itemCmp at h
      rw [ordThenNeEq _ hne'] at h
      exact cmpNat_lt.mp h
  have ctx : CycleCtx (itemCmp (hash seed) cmpNat) items := by
    refine ⟨randomCmp_swap (hash seed), ?_, ?_, hnd⟩
    · intro a b e ha hb he h1 h2
      have k1 := hkey a b ha hb h1
      have k2 := hkey b e hb he h2
      have hlt : cmpNat (hash seed a) (hash seed e) = .lt :=
        cmpNat_lt.mpr (Nat.lt_trans k1 k2)
      unfold itemCmp
      rw [ordThenNeEq _ (by rw [hlt]; intro hc; cases hc)]
      exact hlt
    · intro a b ha hb hab heq
      unfold itemCmp at heq
      have := (ordThenEqEq heq).1
      exact hinj a ha b hb hab (cmpNat_eq.mp this)
  have := cycle_spec ctx hstart
  simp only [navIter_random]
  exact this

/-- C5 witness: a concrete collision-free key assignment on a three-element
candidate set. -/
theorem eo2_c5_random_cycle_witness :
    ([[97], [98], [99]] : List Name).Nodup ∧
      (∀ a ∈ ([[97], [98], [99]] : List Name), ∀ b ∈ ([[97], [98], [99]] : List Name),
        a ≠ b → (fun (_ : Nat) (n : Name) => 200 - n.headD 0) 5 a ≠
          (fun (_ : Nat) (n : Name) => 200 - n.headD 0) 5 b) ∧
      ([98] : Name) ∈ [[97], [98], [99]] ∧
      (navIter (fun _ n => 200 - n.headD 0) ⟨.right, .random 5⟩
          [[97], [98], [99]] 3 [98] = [98] ∧
        ∀ m ∈ [[97], [98], [99]], ∃ k, (1 ≤ k ∧ k ≤ 3 ∧
            navIter (fun _ n => 200 - n.headD 0) ⟨.right, .random 5⟩
              [[97], [98], [99]] k [98] = m) ∧
          ∀ k', 1 ≤ k' → k' ≤ 3 →
            navIter (fun _ n => 200 - n.headD 0) ⟨.right, .random 5⟩
              [[97], [98], [99]] k' [98] = m → k' = k) :=
  ⟨by decide, by decide, by decide,
    eo2_c5_random_cycle (fun _ n => 200 - n.headD 0) 5 [[97], [98], [99]] [98]
      (by decide) (by decide) (by decide)⟩

/-! Helper lemmas for the actor-side claims. -/

theorem findNextC_idx (c : Name → Name → Ordering) (d : Direction)
    (cur : Name) (items : List Name) :
    ∀ nm i, findNextC c d cur items = some (nm, i) → items[i]? = some nm := by
  intro nm i h
  unfold findNextC at h
  rcases hn : (findNextLoop c d cur items 0 none none).1 with _ | r
  · rw [hn] at h
    have h2 : (findNextLoop c d cur items 0 none none).2 = some (nm, i) := by
      simpa [optOr] using h
    exact (loop_idx c d cur items).2 (nm, i) h2
  · rw [hn] at h
    simp only [optOr] at h
    cases h
    exact (loop_idx c d cur items).1 (nm, i) hn

theorem nextInList_lt (hash : Nat → Name → Nat) (list : List FsPath)
    (current : FsPath) (np : NextPath) :
    ∀ idx, nextInList hash list current np = some idx → idx < list.length := by
  intro idx h
  unfold nextInList at h
  rcases hf : np.findNext hash current.render (list.map FsPath.render)
    with _ | r
  · rw [hf] at h
    simp at h
  · rw [hf] at h
    have h' : r.2 = idx := Option.some.inj h
    subst h'
    rcases r with ⟨nm, i⟩
    have hidx : (list.map FsPath.render)[i]? = some nm := by
      unfold NextPath.findNext at hf
      cases hm : np.mode with
      | simple =>
        rw [hm] at hf
        exact findNextC_idx _ np.direction _ _ nm i hf
      | random seed =>
        rw [hm] at hf
        exact findNextC_idx _ np.direction _ _ nm i hf
    have := (List.getElem?_eq_some.mp hidx).1
    simpa using this

/-- C10: in Specified navigation mode, with the current index in bounds,
`current_path` indexes successfully, and `next_path` leaves the path
sequence unchanged and produces only in-bounds indices (the candidate index
always comes from enumerating the sequence itself), so the `paths[current]`
indexings of the actor cannot panic. -/
theorem eo2_c10_specified_safe (hash : Nat → Name → Nat) (fs : Fs)
    (args : NextPath) (paths : List FsPath) (cur : Nat)
    (hb : cur < paths.length) :
    (NavigationMode.specified paths cur).currentPath.isSome = true ∧
      ∀ nav' found,
        NavigationMode.nextPath hash fs args (.specified paths cur) =
          (nav', found) →
        ∃ cur', nav' = .specified paths cur' ∧ cur' < paths.length ∧
          (found = none → cur' = cur) ∧
          ∀ q, found = some q → paths[cur']? = some q := by
  obtain ⟨pc, hcur⟩ : ∃ pc, paths[cur]? = some pc :=
    ⟨_, List.getElem?_eq_getElem hb⟩
  constructor
  · show (paths[cur]?).isSome = true
    rw [hcur]
    rfl
  · intro nav' found h
    simp only [NavigationMode.nextPath] at h
    simp only [hcur] at h
    rcases hnl : nextInList hash paths pc args with _ | idx
    · simp only [hnl] at h
      injection h with h1 h2
      subst h1
      subst h2
      exact ⟨cur, rfl, hb, fun _ => rfl, fun q hq => by cases hq⟩
    · simp only [hnl] at h
      injection h with h1 h2
      subst h1
      subst h2
      have hlt := nextInList_lt hash paths pc args idx hnl
      refine ⟨idx, rfl, hlt, ?_, ?_⟩
      · intro hnone
        rw [List.getElem?_eq_getElem hlt] at hnone
        cases hnone
      · intro q hq
        exact hq

/-- C10 witness. -/
theorem eo2_c10_specified_safe_witness :
    0 < ([⟨[100], [97]⟩, ⟨[100], [98]⟩] : List FsPath).length ∧
      ((NavigationMode.specified [⟨[100], [97]⟩, ⟨[100], [98]⟩] 0).currentPath.isSome
          = true ∧
        ∀ nav' found,
          NavigationMode.nextPath (fun _ _ => 0) ⟨[]⟩ ⟨.right, .simple⟩
            (.specified [⟨[100], [97]⟩, ⟨[100], [98]⟩] 0) = (nav', found) →
          ∃ cur', nav' = .specified [⟨[100], [97]⟩, ⟨[100], [98]⟩] cur' ∧
            cur' < ([⟨[100], [97]⟩, ⟨[100], [98]⟩] : List FsPath).length ∧
            (found = none → cur' = 0) ∧
            ∀ q, found = some q →
              ([⟨[100], [97]⟩, ⟨[100], [98]⟩] : List FsPath)[cur']? = some q) :=
  ⟨by decide,
    eo2_c10_specified_safe (fun _ _ => 0) ⟨[]⟩ ⟨.right, .simple⟩
      [⟨[100], [97]⟩, ⟨[100], [98]⟩] 0 (by decide)⟩

/-- C6: when the cache misses, decoding succeeds, and the decoded image's
weight alone exceeds the cache capacity (so the insertion fails), the actor
still responds with the decoded image and leaves its state unchanged, and
draining that response makes the image the currently displayed entry — a
cache-insert capacity failure never prevents viewing the image. -/
theorem eo2_c6_insert_failure (decode : FsPath → Except DecodeError Image)
    (st : ActorState) (ui : UiState) (p : FsPath) (img : Image)
    (hmiss : st.cache.lookup p = none)
    (hdec : decode p = .ok img)
    (hbig : st.cache.capacity < img.sizeInMemory) :
    Actor.loadImage decode st p = (st, .loadImage p (.ok img)) ∧
      (ui.applyResponse (.loadImage p (.ok img))).current = some (p, .ok img) := by
  refine ⟨?_, rfl⟩
  have hget : st.cache.get p = (none, st.cache) := by
    unfold Cache.get
    rw [hmiss]
  have hput : st.cache.put p img = .error .capacityExceeded := by
    unfold Cache.put
    rw [if_pos hbig]
  unfold Actor.loadImage
  simp only [hget, hdec, hput]

/-- C6 witness. -/
theorem eo2_c6_insert_failure_witness :
    (Cache.lookup ⟨1, []⟩ ⟨[100], [97]⟩ = none ∧
        (1 : Nat) < Image.sizeInMemory ⟨1, 1, [⟨1, 1, 0⟩]⟩) ∧
      (Actor.loadImage (fun _ => .ok ⟨1, 1, [⟨1, 1, 0⟩]⟩)
          ⟨.empty, ⟨1, []⟩, 0⟩ ⟨[100], [97]⟩ =
          (⟨.empty, ⟨1, []⟩, 0⟩,
            .loadImage ⟨[100], [97]⟩ (.ok ⟨1, 1, [⟨1, 1, 0⟩]⟩)) ∧
        (UiState.applyResponse ⟨none⟩
            (.loadImage ⟨[100], [97]⟩ (.ok ⟨1, 1, [⟨1, 1, 0⟩]⟩))).current =
          some (⟨[100], [97]⟩, .ok ⟨1, 1, [⟨1, 1, 0⟩]⟩)) :=
  ⟨⟨by decide, by decide⟩,
    eo2_c6_insert_failure (fun _ => .ok ⟨1, 1, [⟨1, 1, 0⟩]⟩)
      ⟨.empty, ⟨1, []⟩, 0⟩ ⟨none⟩ ⟨[100], [97]⟩ ⟨1, 1, [⟨1, 1, 0⟩]⟩
      (by decide) rfl (by decide)⟩

/-- C1 counterexample: deleting a cached file that is not the current path
removes it from the filesystem and responds no-op, but the actor state —
including the cache — is unchanged: a subsequent cache lookup for the
deleted path still hits, refuting "the deleted path is removed from the
image cache". -/
theorem eo2_c1_counterexample :
    Actor.runCommand (fun _ => .error .ioFailure) (fun _ _ => 0)
        ⟨[⟨[100], [97]⟩]⟩
        ⟨.empty, ⟨100, [(⟨[100], [97]⟩, ⟨1, 1, [⟨1, 1, 0⟩]⟩)]⟩, 0⟩
        (.deleteFile ⟨[100], [97]⟩) =
      .ok (⟨[]⟩, ⟨.empty, ⟨100, [(⟨[100], [97]⟩, ⟨1, 1, [⟨1, 1, 0⟩]⟩)]⟩, 0⟩,
        .noOp) ∧
    Cache.lookup ⟨100, [(⟨[100], [97]⟩, ⟨1, 1, [⟨1, 1, 0⟩]⟩)]⟩ ⟨[100], [97]⟩ =
      some ⟨1, 1, [⟨1, 1, 0⟩]⟩ := by decide

/-- C1 (amended): for a DeleteFile(path) command on an existing file, the
file is removed from the filesystem; when the deleted path is not the
current one the response is no-op and the actor state — its cache included
— is left untouched (no cache eviction happens); when it is the current
one, the command behaves exactly like a NextPath(Right, Simple) command run
against the post-deletion filesystem, which in particular responds no-op
when the directory holds no image files any more. -/
theorem eo2_c1_delete (decode : FsPath → Except DecodeError Image)
    (hash : Nat → Name → Nat) (fs : Fs) (st : ActorState) (p : FsPath)
    (hp : p ∈ fs.files) :
    (st.currentPath ≠ some p →
      Actor.runCommand decode hash fs st (.deleteFile p) =
        .ok (⟨fs.files.erase p⟩, st, .noOp)) ∧
    (st.currentPath = some p →
      Actor.runCommand decode hash fs st (.deleteFile p) =
        Actor.runCommand decode hash ⟨fs.files.erase p⟩ st
          (.nextPath .RIGHT)) ∧
    (∀ current, st.navigationMode = .inDirectory current →
      Fs.listDir ⟨fs.files.erase p⟩ current.parent = [] →
      Actor.runCommand decode hash fs st (.deleteFile p) =
        .ok (⟨fs.files.erase p⟩, st, .noOp)) := by
  have hrm : fs.removeFile p = .ok ⟨fs.files.erase p⟩ := by
    unfold Fs.removeFile
    rw [if_pos hp]
  refine ⟨?_, ?_, ?_⟩
  · intro hne
    simp only [Actor.runCommand, hrm]
    rw [if_neg hne]
  · intro heq
    simp only [Actor.runCommand, hrm]
    rw [if_pos heq]
  · intro current hnav hlist
    have hnd : nextInDirectory hash ⟨fs.files.erase p⟩ current
        (ActorNextPath.RIGHT.withRandomSeed st.randomSeed) = none := by
      unfold nextInDirectory
      rw [hlist]
      rfl
    have hstep : NavigationMode.nextPath hash ⟨fs.files.erase p⟩
        (ActorNextPath.RIGHT.withRandomSeed st.randomSeed) st.navigationMode =
        (st.navigationMode, none) := by
      rw [hnav]
      simp only [NavigationMode.nextPath, hnd]
    have hnp : Actor.nextPath decode hash ⟨fs.files.erase p⟩ st .RIGHT =
        (st, .noOp) := by
      simp only [Actor.nextPath, hstep]
    simp only [Actor.runCommand, hrm]
    by_cases heq : st.currentPath = some p
    · rw [if_pos heq, hnp]
    · rw [if_neg heq]

/-- C1 witness: deleting a non-current file. -/
theorem eo2_c1_delete_witness :
    (⟨[100], [97]⟩ : FsPath) ∈ (⟨[⟨[100], [97]⟩, ⟨[100], [98]⟩]⟩ : Fs).files ∧
      ((ActorState.mk (.inDirectory ⟨[100], [98]⟩) ⟨100, []⟩ 0).currentPath ≠
          some ⟨[100], [97]⟩ →
        Actor.runCommand (fun _ => .error .ioFailure) (fun _ _ => 0)
            ⟨[⟨[100], [97]⟩, ⟨[100], [98]⟩]⟩
            ⟨.inDirectory ⟨[100], [98]⟩, ⟨100, []⟩, 0⟩
            (.deleteFile ⟨[100], [97]⟩) =
          .ok (⟨([⟨[100], [97]⟩, ⟨[100], [98]⟩] : List FsPath).erase
              ⟨[100], [97]⟩⟩,
            ⟨.inDirectory ⟨[100], [98]⟩, ⟨100, []⟩, 0⟩, .noOp)) :=
  ⟨by decide,
    (eo2_c1_delete (fun _ => .error .ioFailure) (fun _ _ => 0)
      ⟨[⟨[100], [97]⟩, ⟨[100], [98]⟩]⟩
      ⟨.inDirectory ⟨[100], [98]⟩, ⟨100, []⟩, 0⟩ ⟨[100], [97]⟩
      (by decide)).1⟩

/-! Cache weight lemmas for C8. -/

theorem weightOf_reverse (es : List (FsPath × Image)) :
    weightOf es.reverse = weightOf es := by
  unfold weightOf
  rw [List.map_reverse, List.sum_reverse]

theorem evictLru_sublist (cap w : Nat) :
    ∀ l : List (FsPath × Image), (evictLru cap w l).Sublist l := by
  intro l
  induction l with
  | nil => exact List.Sublist.refl _
  | cons e rest ih =>
    unfold evictLru
    split
    · exact List.Sublist.refl _
    · exact List.Sublist.cons e ih

theorem evictLru_fits (cap w : Nat) (hw : w ≤ cap) :
    ∀ l : List (FsPath × Image), weightOf (evictLru cap w l) + w ≤ cap := by
  intro l
  induction l with
  | nil =>
    show weightOf [] + w ≤ cap
    simp [weightOf]
    omega
  | cons e rest ih =>
    unfold evictLru
    split
    · assumption
    · exact ih

/-- C8 counterexample: an image with two frames of dimensions
(2^32 - 1) × (2^32 - 1) (valid u32 values).  Each frame's saturating
product W·H·4 saturates at usize::MAX, but the frame sum is a plain
(wrapping) sum, so the computed weight is 2^64 - 2 — not the saturated
value of W·H·4·F, refuting "W*H*4*F computed with saturating arithmetic"
(and in a debug build this sum would panic rather than wrap). -/
theorem eo2_c8_counterexample :
    Image.sizeInMemory ⟨2 ^ 32 - 1, 2 ^ 32 - 1,
        [⟨2 ^ 32 - 1, 2 ^ 32 - 1, 0⟩, ⟨2 ^ 32 - 1, 2 ^ 32 - 1, 0⟩]⟩ =
      2 ^ 64 - 2 ∧
    (2 ^ 64 - 2 : Nat) ≠
      min ((2 ^ 32 - 1) * (2 ^ 32 - 1) * 4 * 2) usizeMax := by
  constructor
  · show (satMul (satMul (2 ^ 32 - 1) (2 ^ 32 - 1)) 4 +
        (satMul (satMul (2 ^ 32 - 1) (2 ^ 32 - 1)) 4 + 0)) % 2 ^ 64 =
      2 ^ 64 - 2
    norm_num [satMul, usizeMax]
  · norm_num [usizeMax]

/-- C8 (amended): the weight of an image whose F frames all have dimensions
W × H is exactly W·H·4·F whenever that product does not overflow usize
(each per-frame product is saturating, but the frame sum wraps); and a
successful insert puts the new entry in front of a least-recently-used
eviction of the old entries, after which the total weight is exactly the
surviving entries' weight plus the new entry's weight and does not exceed
the capacity. -/
theorem eo2_c8_weight_accounting :
    (∀ wd ht fr dur : Nat, wd * ht * 4 * fr < 2 ^ 64 →
      Image.sizeInMemory ⟨wd, ht, List.replicate fr ⟨wd, ht, dur⟩⟩ =
        wd * ht * 4 * fr) ∧
    (∀ (c : Cache) (p : FsPath) (img : Image) (c' : Cache),
      Cache.put c p img = .ok c' →
      ∃ kept, c'.entries = (p, img) :: kept ∧ kept.Sublist c.entries ∧
        c'.totalWeight = weightOf kept + img.sizeInMemory ∧
        c'.totalWeight ≤ c.capacity ∧ c'.capacity = c.capacity) := by
  constructor
  · intro wd ht fr dur hlt
    unfold Image.sizeInMemory
    rw [List.map_replicate, List.sum_replicate, smul_eq_mul]
    rcases Nat.eq_zero_or_pos fr with hfr | hfr
    · subst hfr
      simp
    · have h1 : wd * ht * 4 * 1 ≤ wd * ht * 4 * fr :=
        Nat.mul_le_mul (Nat.le_refl _) hfr
      rw [Nat.mul_one] at h1
      have h2 : wd * ht * 1 ≤ wd * ht * 4 :=
        Nat.mul_le_mul (Nat.le_refl _) (by omega)
      rw [Nat.mul_one] at h2
      have hsat1 : satMul wd ht = wd * ht := by
        unfold satMul usizeMax
        apply Nat.min_eq_left
        omega
      have hsat2 : satMul (wd * ht) 4 = wd * ht * 4 := by
        unfold satMul usizeMax
        apply Nat.min_eq_left
        omega
      rw [hsat1, hsat2, Nat.mul_comm fr (wd * ht * 4)]
      exact Nat.mod_eq_of_lt hlt
  · intro c p img c' h
    simp only [Cache.put] at h
    split at h
    · cases h
    · rename_i hcap
      have hw : img.sizeInMemory ≤ c.capacity := Nat.le_of_not_lt hcap
      injection h with h
      subst h
      refine ⟨(evictLru c.capacity img.sizeInMemory c.entries.reverse).reverse,
        rfl, ?_, ?_, ?_, rfl⟩
      · have hsub := evictLru_sublist c.capacity img.sizeInMemory
          c.entries.reverse
        have := List.Sublist.reverse hsub
        rwa [List.reverse_reverse] at this
      · show weightOf ((p, img) ::
            (evictLru c.capacity img.sizeInMemory c.entries.reverse).reverse) = _
        unfold weightOf
        simp [Nat.add_comm]
      · show weightOf ((p, img) ::
            (evictLru c.capacity img.sizeInMemory c.entries.reverse).reverse) ≤
          c.capacity
        have hfit := evictLru_fits c.capacity img.sizeInMemory hw
          c.entries.reverse
        have hrev := weightOf_reverse
          (evictLru c.capacity img.sizeInMemory c.entries.reverse)
        unfold weightOf at hrev hfit ⊢
        simp only [List.map_cons, List.sum_cons]
        omega

/-- C8 witness: inserting a 1×1 single-frame image (weight 4) into a
capacity-8 cache holding one 1×2 entry (weight 8) evicts the old entry. -/
theorem eo2_c8_weight_accounting_witness :
    ((1 : Nat) * 1 * 4 * 1 < 2 ^ 64 ∧
        Image.sizeInMemory ⟨1, 1, List.replicate 1 ⟨1, 1, 0⟩⟩ = 1 * 1 * 4 * 1) ∧
      Cache.put ⟨8, [(⟨[100], [98]⟩, ⟨1, 2, [⟨1, 2, 0⟩]⟩)]⟩ ⟨[100], [97]⟩
          ⟨1, 1, [⟨1, 1, 0⟩]⟩ = .ok ⟨8, [(⟨[100], [97]⟩, ⟨1, 1, [⟨1, 1, 0⟩]⟩)]⟩ ∧
      (∃ kept, (Cache.mk 8 [(⟨[100], [97]⟩, ⟨1, 1, [⟨1, 1, 0⟩]⟩)]).entries =
          (⟨[100], [97]⟩, ⟨1, 1, [⟨1, 1, 0⟩]⟩) :: kept ∧
        kept.Sublist [(⟨[100], [98]⟩, ⟨1, 2, [⟨1, 2, 0⟩]⟩)] ∧
        (Cache.mk 8 [(⟨[100], [97]⟩, ⟨1, 1, [⟨1, 1, 0⟩]⟩)]).totalWeight =
          weightOf kept + Image.sizeInMemory ⟨1, 1, [⟨1, 1, 0⟩]⟩ ∧
        (Cache.mk 8 [(⟨[100], [97]⟩, ⟨1, 1, [⟨1, 1, 0⟩]⟩)]).totalWeight ≤ 8 ∧
        (Cache.mk 8 [(⟨[100], [97]⟩, ⟨1, 1, [⟨1, 1, 0⟩]⟩)]).capacity = 8) :=
  ⟨⟨by decide, eo2_c8_weight_accounting.1 1 1 1 0 (by decide)⟩, by decide,
    eo2_c8_weight_accounting.2 ⟨8, [(⟨[100], [98]⟩, ⟨1, 2, [⟨1, 2, 0⟩]⟩)]⟩
      ⟨[100], [97]⟩ ⟨1, 1, [⟨1, 1, 0⟩]⟩
      ⟨8, [(⟨[100], [97]⟩, ⟨1, 1, [⟨1, 1, 0⟩]⟩)]⟩ (by decide)⟩

/-! Protocol invariant for C7. -/

/-- At most one command is outstanding, and an idle handle has nothing in
flight. -/
def SysInv (s : ActorSystem) : Prop :=
  s.outstanding ≤ 1 ∧ (s.handle.waiting = false → s.outstanding = 0)

theorem sysInv_start : SysInv .start := by
  constructor <;> simp [ActorSystem.outstanding, ActorSystem.start]

theorem sysInv_step (s : ActorSystem) (ev : SysEvent) (h : SysInv s) :
    SysInv (s.step ev) := by
  obtain ⟨h1, h2⟩ := h
  rcases s with ⟨⟨w, cq, rq⟩, b⟩
  cases b with
  | false =>
    have h1' : cq.length + rq.length + 0 ≤ 1 := h1
    have h2' : w = false → cq.length + rq.length + 0 = 0 := h2
    cases ev with
    | send c =>
      show SysInv ⟨(Handle.send ⟨w, cq, rq⟩ c).2, false⟩
      cases w with
      | true => exact ⟨h1, h2⟩
      | false =>
        have h0 := h2' rfl
        show SysInv ⟨⟨true, cq ++ [c], rq⟩, false⟩
        refine ⟨?_, ?_⟩
        · show (cq ++ [c]).length + rq.length + 0 ≤ 1
          simp only [List.length_append, List.length_cons, List.length_nil]
          omega
        · intro hw
          exact Bool.noConfusion hw
    | poll =>
      show SysInv ⟨(Handle.pollResponse ⟨w, cq, rq⟩).2, false⟩
      cases rq with
      | nil => exact ⟨h1, h2⟩
      | cons r rest =>
        have h1c : cq.length + (rest.length + 1) + 0 ≤ 1 := h1'
        show SysInv ⟨⟨false, cq, rest⟩, false⟩
        refine ⟨?_, ?_⟩
        · show cq.length + rest.length + 0 ≤ 1
          omega
        · intro _
          show cq.length + rest.length + 0 = 0
          omega
    | take =>
      cases cq with
      | nil => exact ⟨h1, h2⟩
      | cons c rest =>
        have h1c : rest.length + 1 + rq.length + 0 ≤ 1 := h1'
        show SysInv ⟨⟨w, rest, rq⟩, true⟩
        refine ⟨?_, ?_⟩
        · show rest.length + rq.length + 1 ≤ 1
          omega
        · intro hw
          have h0 : rest.length + 1 + rq.length + 0 = 0 := h2' hw
          show rest.length + rq.length + 1 = 0
          omega
    | respond r => exact ⟨h1, h2⟩
  | true =>
    have h1' : cq.length + rq.length + 1 ≤ 1 := h1
    have h2' : w = false → cq.length + rq.length + 1 = 0 := h2
    cases ev with
    | send c =>
      show SysInv ⟨(Handle.send ⟨w, cq, rq⟩ c).2, true⟩
      cases w with
      | true => exact ⟨h1, h2⟩
      | false => exact absurd (h2' rfl) (by omega)
    | poll =>
      show SysInv ⟨(Handle.pollResponse ⟨w, cq, rq⟩).2, true⟩
      cases rq with
      | nil => exact ⟨h1, h2⟩
      | cons r rest =>
        have h1c : cq.length + (rest.length + 1) + 1 ≤ 1 := h1'
        exact absurd h1c (by omega)
    | take =>
      cases cq with
      | nil => exact ⟨h1, h2⟩
      | cons c rest =>
        have h1c : rest.length + 1 + rq.length + 1 ≤ 1 := h1'
        exact absurd h1c (by omega)
    | respond r =>
      show SysInv ⟨⟨w, cq, rq ++ [r]⟩, false⟩
      refine ⟨?_, ?_⟩
      · show cq.length + (rq ++ [r]).length + 0 ≤ 1
        simp only [List.length_append, List.length_cons, List.length_nil]
        omega
      · intro hw
        have h0 := h2' hw
        show cq.length + (rq ++ [r]).length + 0 = 0
        simp only [List.length_append, List.length_cons, List.length_nil]
        omega


theorem sysInv_run : ∀ (evs : List SysEvent) (s : ActorSystem),
    SysInv s → SysInv (ActorSystem.run s evs) := by
  intro evs
  induction evs with
  | nil => intro s h; exact h
  | cons e evs ih =>
    intro s h
    exact ih _ (sysInv_step s e h)

/-- C7: the handle is a two-state machine: in the Waiting state a send
returns AlreadyWaiting and enqueues nothing; in the Idle state a send
enqueues exactly the one command, returns Sent and enters Waiting;
poll_response is non-blocking, returning nothing and staying put while no
response is there, and yielding the response and returning to Idle when one
is; consequently, along every event sequence of the protocol from the
spawn state, at most one command is outstanding. -/
theorem eo2_c7_handle_protocol :
    (∀ (h : Handle) (c : Command), h.waiting = true →
        h.send c = (.alreadyWaiting, h)) ∧
      (∀ (h : Handle) (c : Command), h.waiting = false →
        h.send c = (.sent, ⟨true, h.commandQueue ++ [c], h.responseQueue⟩)) ∧
      (∀ h : Handle, h.responseQueue = [] → h.pollResponse = (none, h)) ∧
      (∀ (h : Handle) (r : Except IoError Response)
          (rest : List (Except IoError Response)),
        h.responseQueue = r :: rest →
        h.pollResponse = (some r, ⟨false, h.commandQueue, rest⟩)) ∧
      (∀ evs : List SysEvent,
        (ActorSystem.run .start evs).outstanding ≤ 1) := by
  refine ⟨?_, ?_, ?_, ?_, ?_⟩
  · intro h c hw
    unfold Handle.send
    rw [if_pos hw]
  · intro h c hw
    unfold Handle.send
    rw [if_neg (by rw [hw]; intro hc; cases hc)]
  · intro h hr
    rcases h with ⟨w, cq, rq⟩
    simp only at hr
    subst hr
    rfl
  · intro h r rest hr
    rcases h with ⟨w, cq, rq⟩
    simp only at hr
    subst hr
    rfl
  · intro evs
    exact (sysInv_run evs .start sysInv_start).1

/-- C7 witness. -/
theorem eo2_c7_handle_protocol_witness :
    ((⟨true, [], []⟩ : Handle).waiting = true ∧
        Handle.send ⟨true, [], []⟩ (.nextPath .RIGHT) =
          (.alreadyWaiting, ⟨true, [], []⟩)) ∧
      ((⟨false, [], []⟩ : Handle).waiting = false ∧
        Handle.send ⟨false, [], []⟩ (.nextPath .RIGHT) =
          (.sent, ⟨true, [.nextPath .RIGHT], []⟩)) ∧
      Handle.pollResponse ⟨true, [], []⟩ = (none, ⟨true, [], []⟩) ∧
      Handle.pollResponse ⟨true, [], [.ok .noOp]⟩ =
        (some (.ok .noOp), ⟨false, [], []⟩) ∧
      (ActorSystem.run .start
          [.respond (.ok .noOp), .poll, .send (.nextPath .RIGHT), .take,
            .respond (.ok .noOp), .poll]).outstanding ≤ 1 :=
  ⟨⟨rfl, eo2_c7_handle_protocol.1 ⟨true, [], []⟩ (.nextPath .RIGHT) rfl⟩,
    ⟨rfl, eo2_c7_handle_protocol.2.1 ⟨false, [], []⟩ (.nextPath .RIGHT) rfl⟩,
    eo2_c7_handle_protocol.2.2.1 ⟨true, [], []⟩ rfl,
    eo2_c7_handle_protocol.2.2.2.1 ⟨true, [], [.ok .noOp]⟩ (.ok .noOp) [] rfl,
    eo2_c7_handle_protocol.2.2.2.2
      [.respond (.ok .noOp), .poll, .send (.nextPath .RIGHT), .take,
        .respond (.ok .noOp), .poll]⟩

end Eo2
